import Mathlib

/-!
Shallow embedding of `src/ip_validator.c` (IPv4/IPv6 textual validators)
and proofs about the claims of the specification.

A C string is modelled as the `List Char` of its characters up to (not
including) the NUL terminator; a nullable `const char *` argument is an
`Option (List Char)`.  Reading `str[i]` is modelled by `charAt`, which
yields `'\x00'` past the end of the list, exactly as reading the
terminator of the C string does.  All loops are translated fuel-style so
that every definition is executable and reduces in the kernel.
-/

namespace IpValidator

/-- Reading byte `i` of the C string: out-of-range reads give the NUL
terminator `'\x00'`. -/
def charAt (s : List Char) (i : Nat) : Char := s.getD i '\x00'

/-- Model of C `strnlen`: the length of the string, capped at `n`. -/
def strnlen (s : List Char) (n : Nat) : Nat := min s.length n

/-- C `isdigit` on the ASCII digits (C compares character codes). -/
def isDigitChar (c : Char) : Bool := decide ('0'.toNat ≤ c.toNat ∧ c.toNat ≤ '9'.toNat)

/-- Numeric value of an ASCII digit, as the C expression `str[i] - '0'`. -/
def digitVal (c : Char) : Nat := c.toNat - '0'.toNat

/-- Loop of `parse_int`: scans indices `i, i+1, ...` for `fuel = end - start`
steps, accumulating the decimal value; a non-digit rejects, and the
overflow test `*result > 25 || (*result == 25 && digit > 5)` rejects
before the multiply-add. -/
def parseIntGo (s : List Char) : Nat → Nat → Nat → Option Nat
  | 0, _, acc => some acc
  | fuel+1, i, acc =>
    if !isDigitChar (charAt s i) then none
    else if acc > 25 || (acc == 25 && digitVal (charAt s i) > 5) then none
    else parseIntGo s fuel (i+1) (acc * 10 + digitVal (charAt s i))

/-- C `parse_int(str, start, end, &result)`; `none` models returning
`false`.  The source also rejects a NULL `str` (not representable here)
and `*str == '\0'`. -/
def parse_int (s : List Char) (start e : Nat) : Option Nat :=
  if start ≥ e then none
  else if charAt s 0 = '\x00' then none
  else parseIntGo s (e - start) start 0

/-- Main loop of `is_valid_ipv4_address`: scans indices `0..len` inclusive
with `fuel = len + 1 - i`; at a `'.'` or NUL boundary the pending octet
`[start, i)` is parsed, and a NUL boundary ends the scan. -/
def ipv4Loop (s : List Char) : Nat → Nat → Nat → Nat → Bool
  | 0, _, _, cnt => cnt == 4
  | fuel+1, i, start, cnt =>
    if charAt s i = '.' || charAt s i = '\x00' then
      if i = start then false
      else
        match parse_int s start i with
        | none => false
        | some v =>
          if v > 255 then false
          else if charAt s i = '\x00' then (cnt + 1) == 4
          else ipv4Loop s fuel (i+1) (i+1) (cnt+1)
    else if !isDigitChar (charAt s i) then false
    else ipv4Loop s fuel (i+1) start cnt

/-- Body of `is_valid_ipv4_address` after the NULL check: `len` is
`strnlen(str, MAX_SIZE_IPV4)` with `MAX_SIZE_IPV4 = 16`. -/
def is_valid_ipv4_core (s : List Char) : Bool :=
  ipv4Loop s (strnlen s 16 + 1) 0 0 0

/-- C `is_valid_ipv4_address`; `none` models the NULL pointer. -/
def is_valid_ipv4_address : Option (List Char) → Bool
  | none => false
  | some s => is_valid_ipv4_core s

/-- Characters of a string literal. -/
def str (s : String) : List Char := s.data

/-- C `hex_digit_value`: the value of a hexadecimal character, or `-1`
(C compares character codes). -/
def hex_digit_value (c : Char) : Int :=
  if '0'.toNat ≤ c.toNat ∧ c.toNat ≤ '9'.toNat then (c.toNat : Int) - ('0'.toNat : Int)
  else if 'a'.toNat ≤ c.toNat ∧ c.toNat ≤ 'f'.toNat then (c.toNat : Int) - ('a'.toNat : Int) + 10
  else if 'A'.toNat ≤ c.toNat ∧ c.toNat ≤ 'F'.toNat then (c.toNat : Int) - ('A'.toNat : Int) + 10
  else -1

/-- Dot-counting scan of the embedded-IPv4 branch: walks `fuel = e - p`
positions from `p`, counting `'.'` characters and rejecting anything that
is neither a dot nor a digit. -/
def checkDots (s : List Char) : Nat → Nat → Nat → Option Nat
  | 0, _, dots => some dots
  | fuel+1, p, dots =>
    if charAt s p = '.' then checkDots s fuel (p+1) (dots+1)
    else if !isDigitChar (charAt s p) then none
    else checkDots s fuel (p+1) dots

/-- Main loop of `is_valid_ipv6_address` with `fuel = e - i` where `e` is
the index of `src_endp`.  Arguments after the fuel: cursor `i`, token
start `curtok`, `group_count`, `has_compression`, `xdigits_seen`, `val`.
The result is the `(group_count, has_compression)` state reaching the
final group-count check, or `none` for an early `return false`; the
post-loop closing of a pending group is folded into the fuel-0 case. -/
def scanLoop (s : List Char) (e : Nat) :
    Nat → Nat → Nat → Nat → Bool → Nat → Nat → Option (Nat × Bool)
  | 0, _, _, gc, comp, xd, _ =>
    if 0 < xd then
      if gc + 1 > 8 then none else some (gc + 1, comp)
    else some (gc, comp)
  | fuel+1, i, curtok, gc, comp, xd, val =>
    if 0 ≤ hex_digit_value (charAt s i) then
      if xd = 4 then none
      else if val * 16 + (hex_digit_value (charAt s i)).toNat > 0xffff then none
      else scanLoop s e fuel (i+1) curtok gc comp (xd+1)
        (val * 16 + (hex_digit_value (charAt s i)).toNat)
    else if charAt s i = ':' then
      if xd = 0 then
        if comp then none
        else scanLoop s e fuel (i+1) (i+1) gc true 0 val
      else if i + 1 = e then none
      else if gc + 1 > 8 then none
      else scanLoop s e fuel (i+1) (i+1) (gc+1) comp 0 0
    else if charAt s i = '.' ∧ 0 < xd then
      match checkDots s (e - curtok) curtok 0 with
      | none => none
      | some dots =>
        if dots ≠ 3 then none
        else if is_valid_ipv4_core (List.drop curtok s) then some (gc + 2, comp)
        else none
    else none

/-- Scan of `is_valid_ipv6_address` up to (not including) the final
group-count acceptance check: NULL/empty handling, the leading-`::`
special case, and the main loop over the window `strnlen(str, 46)`
(`INET6_ADDRSTRLEN = 46`). -/
def ipv6Scan (s : List Char) : Option (Nat × Bool) :=
  if charAt s 0 = '\x00' then none
  else if strnlen s 46 = 0 then none
  else if charAt s 0 = ':' then
    if 1 = strnlen s 46 then none
    else if charAt s 1 ≠ ':' then none
    else scanLoop s (strnlen s 46) (strnlen s 46 - 1) 1 1 0 false 0 0
  else scanLoop s (strnlen s 46) (strnlen s 46) 0 0 0 false 0 0

/-- Final acceptance check on the `(group_count, has_compression)` state:
with compression the count must be below 8, without it exactly 8. -/
def ipv6Finish : Option (Nat × Bool) → Bool
  | none => false
  | some (gc, comp) => if comp then decide (gc < 8) else decide (gc = 8)

/-- Body of `is_valid_ipv6_address` after the NULL check. -/
def is_valid_ipv6_core (s : List Char) : Bool :=
  ipv6Finish (ipv6Scan s)

/-- C `is_valid_ipv6_address`; `none` models the NULL pointer. -/
def is_valid_ipv6_address : Option (List Char) → Bool
  | none => false
  | some s => is_valid_ipv6_core s

/-- Instrumented copy of `scanLoop` that additionally records the
hex-digit count of every completed group, in scan order (used only to
state claim C7; `scanLoopSizes_agree` shows it refines `scanLoop`). -/
def scanLoopSizes (s : List Char) (e : Nat) :
    Nat → Nat → Nat → Nat → Bool → Nat → Nat → Option (Nat × Bool × List Nat)
  | 0, _, _, gc, comp, xd, _ =>
    if 0 < xd then
      if gc + 1 > 8 then none else some (gc + 1, comp, [xd])
    else some (gc, comp, [])
  | fuel+1, i, curtok, gc, comp, xd, val =>
    if 0 ≤ hex_digit_value (charAt s i) then
      if xd = 4 then none
      else if val * 16 + (hex_digit_value (charAt s i)).toNat > 0xffff then none
      else scanLoopSizes s e fuel (i+1) curtok gc comp (xd+1)
        (val * 16 + (hex_digit_value (charAt s i)).toNat)
    else if charAt s i = ':' then
      if xd = 0 then
        if comp then none
        else scanLoopSizes s e fuel (i+1) (i+1) gc true 0 val
      else if i + 1 = e then none
      else if gc + 1 > 8 then none
      else
        match scanLoopSizes s e fuel (i+1) (i+1) (gc+1) comp 0 0 with
        | none => none
        | some (g, c, szs) => some (g, c, xd :: szs)
    else if charAt s i = '.' ∧ 0 < xd then
      match checkDots s (e - curtok) curtok 0 with
      | none => none
      | some dots =>
        if dots ≠ 3 then none
        else if is_valid_ipv4_core (List.drop curtok s) then some (gc + 2, comp, [])
        else none
    else none

/-- Instrumented copy of `ipv6Scan` built on `scanLoopSizes`. -/
def ipv6ScanSizes (s : List Char) : Option (Nat × Bool × List Nat) :=
  if charAt s 0 = '\x00' then none
  else if strnlen s 46 = 0 then none
  else if charAt s 0 = ':' then
    if 1 = strnlen s 46 then none
    else if charAt s 1 ≠ ':' then none
    else scanLoopSizes s (strnlen s 46) (strnlen s 46 - 1) 1 1 0 false 0 0
  else scanLoopSizes s (strnlen s 46) (strnlen s 46) 0 0 0 false 0 0

/-- Variant of `parse_int` acting directly on the list of characters of
the octet (proof infrastructure; `parseIntGo_eq_list` relates it to the
index-based scan of the source). -/
def parseIntList : List Char → Nat → Option Nat
  | [], acc => some acc
  | c :: t, acc =>
    if !isDigitChar c then none
    else if acc > 25 || (acc == 25 && digitVal c > 5) then none
    else parseIntList t (acc * 10 + digitVal c)

/-- List-structural reformulation of the IPv4 scan (proof
infrastructure): `pend` holds the pending octet `[octet_start, i)` and
the remaining characters are scanned structurally. -/
def ipv4Ref (pend : List Char) (cnt : Nat) : List Char → Bool
  | [] =>
    if pend.isEmpty then false
    else
      match parseIntList pend 0 with
      | none => false
      | some v => if v > 255 then false else (cnt + 1) == 4
  | c :: t =>
    if c = '.' then
      if pend.isEmpty then false
      else
        match parseIntList pend 0 with
        | none => false
        | some v => if v > 255 then false else ipv4Ref [] (cnt + 1) t
    else if !isDigitChar c then false
    else ipv4Ref (pend ++ [c]) cnt t

/-- Splitting a string at every `'.'`, keeping empty segments (spec-side
notion of the dot-separated decomposition). -/
def splitDots : List Char → List (List Char)
  | [] => [[]]
  | c :: t =>
    if c = '.' then [] :: splitDots t
    else
      match splitDots t with
      | [] => [[c]]
      | h :: r => (c :: h) :: r

/-- Decimal value of a digit string (spec side). -/
def decVal (l : List Char) : Nat := l.foldl (fun a c => a * 10 + digitVal c) 0

/-- Spec-side condition on one segment: non-empty, all ASCII digits,
value at most 255. -/
def okSeg (l : List Char) : Bool :=
  !l.isEmpty && l.all isDigitChar && decide (decVal l ≤ 255)

/-- Modelled from the spec's words for the right side of claim C1: the
string consists of exactly four dot-separated segments, each non-empty,
containing only ASCII digits, and of value at most 255. -/
def ipv4SpecOk (s : List Char) : Bool :=
  (splitDots s).length == 4 && (splitDots s).all okSeg

/-- Dotted join of four segments. -/
def joinQuad (a b c d : List Char) : List Char :=
  a ++ '.' :: (b ++ '.' :: (c ++ '.' :: d))

/-- Dotted join of four segments with a `'0'` prepended to the `k`-th
segment (`k ≥ 3` pads the last one). -/
def padQuad (k : Nat) (a b c d : List Char) : List Char :=
  if k = 0 then joinQuad ('0' :: a) b c d
  else if k = 1 then joinQuad a ('0' :: b) c d
  else if k = 2 then joinQuad a b ('0' :: c) d
  else joinQuad a b c ('0' :: d)

theorem charAt_take (s : List Char) (n i : Nat) (h : i < n) :
    charAt (s.take n) i = charAt s i := by
  induction s generalizing n i with
  | nil => simp [charAt]
  | cons c t ih =>
    cases n with
    | zero => omega
    | succ m =>
      cases i with
      | zero => simp [charAt]
      | succ j =>
        simp only [List.take_succ_cons, charAt, List.getD_cons_succ]
        exact ih m j (by omega)

theorem parseIntGo_take (s : List Char) (n : Nat) (fuel : Nat) :
    ∀ i acc, i + fuel ≤ n →
      parseIntGo (s.take n) fuel i acc = parseIntGo s fuel i acc := by
  induction fuel with
  | zero => intro i acc _; rfl
  | succ f ih =>
    intro i acc h
    simp only [parseIntGo, charAt_take s n i (by omega)]
    split
    · rfl
    · split
      · rfl
      · exact ih (i+1) _ (by omega)

theorem parse_int_take (s : List Char) (n start e : Nat) (he : e ≤ n) (h0 : 0 < n) :
    parse_int (s.take n) start e = parse_int s start e := by
  unfold parse_int
  rw [charAt_take s n 0 h0]
  by_cases hse : start ≥ e
  · simp [hse]
  · simp only [if_neg hse]
    split
    · rfl
    · exact parseIntGo_take s n (e - start) start 0 (by omega)

theorem ipv4Loop_take (s : List Char) (fuel : Nat) :
    ∀ i start cnt, i + fuel ≤ 17 →
      ipv4Loop (s.take 17) fuel i start cnt = ipv4Loop s fuel i start cnt := by
  induction fuel with
  | zero => intro i start cnt _; rfl
  | succ f ih =>
    intro i start cnt h
    simp only [ipv4Loop, charAt_take s 17 i (by omega),
      parse_int_take s 17 start i (by omega) (by omega)]
    split
    · split
      · rfl
      · split
        · rfl
        · split
          · rfl
          · split
            · rfl
            · exact ih (i+1) (i+1) (cnt+1) (by omega)
    · split
      · rfl
      · exact ih (i+1) start cnt (by omega)

theorem strnlen_take17 (s : List Char) : strnlen (s.take 17) 16 = strnlen s 16 := by
  unfold strnlen
  rw [List.length_take]
  omega

/-- C2 (amended): the IPv4 scan reads at most the first 17 characters
(`strnlen(str, 16)` plus the boundary position), so for every string
longer than 15 characters the verdict coincides with the verdict on its
first 17 characters; such strings are not all rejected. -/
theorem c2_truncated_window (s : List Char) (h : 15 < s.length) :
    is_valid_ipv4_address (some s) = is_valid_ipv4_address (some (s.take 17)) := by
  show is_valid_ipv4_core s = is_valid_ipv4_core (s.take 17)
  unfold is_valid_ipv4_core
  rw [strnlen_take17, ipv4Loop_take s (strnlen s 16 + 1) 0 0 0 (by unfold strnlen; omega)]

/-- C2 witness: the amended theorem applied to a concrete 20-character
string. -/
theorem c2_truncated_window_witness :
    15 < (str "0255.255.255.255.999").length ∧
      is_valid_ipv4_address (some (str "0255.255.255.255.999")) =
        is_valid_ipv4_address (some ((str "0255.255.255.255.999").take 17)) :=
  ⟨by decide, c2_truncated_window (str "0255.255.255.255.999") (by decide)⟩

/-- C2 counterexample: the 16-character string "0255.255.255.255" is
longer than 15 characters yet `is_valid_ipv4_address` accepts it. -/
theorem c2_counterexample :
    15 < (str "0255.255.255.255").length ∧
      is_valid_ipv4_address (some (str "0255.255.255.255")) = true :=
  ⟨by decide, by decide⟩

/-- C8: a NULL pointer and the empty string are rejected (return `false`)
by both validators; in the embedding both functions are total Boolean
functions, so `false` is the only failure outcome. -/
theorem c8_null_empty :
    is_valid_ipv4_address none = false ∧ is_valid_ipv4_address (some []) = false ∧
      is_valid_ipv6_address none = false ∧ is_valid_ipv6_address (some []) = false :=
  ⟨rfl, by decide, rfl, by decide⟩

theorem digitVal_le_nine (c : Char) (h : isDigitChar c = true) : digitVal c ≤ 9 := by
  unfold isDigitChar at h
  unfold digitVal
  have h0 : '0'.toNat = 48 := rfl
  have h9 : '9'.toNat = 57 := rfl
  rw [decide_eq_true_eq, h0, h9] at h
  rw [h0]
  omega

theorem parseIntGo_le (s : List Char) (fuel : Nat) :
    ∀ i acc v, acc ≤ 255 → parseIntGo s fuel i acc = some v → v ≤ 255 := by
  induction fuel with
  | zero =>
    intro i acc v h he
    unfold parseIntGo at he
    exact (Option.some.inj he) ▸ h
  | succ f ih =>
    intro i acc v h he
    unfold parseIntGo at he
    split at he
    · exact absurd he (by simp)
    · split at he
      · exact absurd he (by simp)
      · rename_i hdig hov
        refine ih (i+1) _ v ?_ he
        have hd9 : digitVal (charAt s i) ≤ 9 :=
          digitVal_le_nine _ (by revert hdig; simp)
        simp only [Bool.or_eq_true, Bool.and_eq_true, decide_eq_true_eq, beq_iff_eq,
          not_or, not_and] at hov
        omega

/-- C6: `parse_int` short-circuits before its accumulator can pass 255 —
every successful parse returns a value at most 255 (so the post-parse
`octet_value > 255` test can never fire after a successful parse) — and
consequently "99999999999.1.1.1" is rejected. -/
theorem c6_parse_bounded :
    (∀ (s : List Char) (a b v : Nat), parse_int s a b = some v → v ≤ 255) ∧
      is_valid_ipv4_address (some (str "99999999999.1.1.1")) = false := by
  constructor
  · intro s a b v h
    unfold parse_int at h
    split at h
    · exact absurd h (by simp)
    · split at h
      · exact absurd h (by simp)
      · exact parseIntGo_le s (b - a) a 0 v (by omega) h
  · decide

/-- C6 witness: the bound applied to a concrete successful parse. -/
theorem c6_parse_bounded_witness :
    parse_int (str "123") 0 3 = some 123 ∧ (123 : Nat) ≤ 255 :=
  ⟨by decide, c6_parse_bounded.1 (str "123") 0 3 123 (by decide)⟩

/-- C3: acceptance is exactly the final group-count rule — with
compression the final count must be below 8, without compression exactly
8 — and the listed edge cases hold: "::" accepts, a bare 8-group address
accepts, compression together with 8 groups rejects. -/
theorem c3_group_count_rule :
    (∀ (s : List Char) (gc : Nat) (comp : Bool), ipv6Scan s = some (gc, comp) →
        (is_valid_ipv6_address (some s) = true ↔ if comp then gc < 8 else gc = 8)) ∧
      is_valid_ipv6_address (some (str "::")) = true ∧
      is_valid_ipv6_address (some (str "2001:0db8:0000:0000:0000:0000:0000:0001")) = true ∧
      is_valid_ipv6_address (some (str "::1:2:3:4:5:6:7:8")) = false := by
  refine ⟨?_, by decide, by decide, by decide⟩
  intro s gc comp h
  show is_valid_ipv6_core s = true ↔ _
  unfold is_valid_ipv6_core
  rw [h]
  cases comp <;> simp [ipv6Finish]

/-- C3 witness: the group-count rule applied to the concrete input "::". -/
theorem c3_group_count_rule_witness :
    ipv6Scan (str "::") = some (0, true) ∧ is_valid_ipv6_address (some (str "::")) = true :=
  ⟨by decide, (c3_group_count_rule.1 (str "::") 0 true (by decide)).mpr (by decide)⟩

theorem scanLoopSizes_agree (s : List Char) (e : Nat) (fuel : Nat) :
    ∀ i curtok gc comp xd val,
      scanLoop s e fuel i curtok gc comp xd val =
        Option.map (fun t => (t.1, t.2.1)) (scanLoopSizes s e fuel i curtok gc comp xd val) := by
  induction fuel with
  | zero =>
    intro i curtok gc comp xd val
    simp only [scanLoop, scanLoopSizes]
    split
    · split
      · rfl
      · rfl
    · rfl
  | succ f ih =>
    intro i curtok gc comp xd val
    simp only [scanLoop, scanLoopSizes]
    split
    · split
      · rfl
      · split
        · rfl
        · exact ih _ _ _ _ _ _
    · split
      · split
        · split
          · rfl
          · exact ih _ _ _ _ _ _
        · split
          · rfl
          · split
            · rfl
            · rw [ih (i+1) (i+1) (gc+1) comp 0 0]
              cases scanLoopSizes s e f (i+1) (i+1) (gc+1) comp 0 0 with
              | none => rfl
              | some t => obtain ⟨g, c, szs⟩ := t; rfl
      · split
        · split
          · rfl
          · split
            · rfl
            · split
              · rfl
              · rfl
        · rfl

theorem ipv6ScanSizes_agree (s : List Char) :
    ipv6Scan s = Option.map (fun t => (t.1, t.2.1)) (ipv6ScanSizes s) := by
  unfold ipv6Scan ipv6ScanSizes
  split
  · rfl
  · split
    · rfl
    · split
      · split
        · rfl
        · split
          · rfl
          · exact scanLoopSizes_agree s _ _ _ _ _ _ _ _
      · exact scanLoopSizes_agree s _ _ _ _ _ _ _ _

theorem scanLoopSizes_bounds (s : List Char) (e : Nat) (fuel : Nat) :
    ∀ i curtok gc comp xd val g c szs, xd ≤ 4 →
      scanLoopSizes s e fuel i curtok gc comp xd val = some (g, c, szs) →
      ∀ d ∈ szs, 1 ≤ d ∧ d ≤ 4 := by
  induction fuel with
  | zero =>
    intro i curtok gc comp xd val g c szs hxd h
    unfold scanLoopSizes at h
    by_cases h1 : 0 < xd
    · rw [if_pos h1] at h
      by_cases h2 : gc + 1 > 8
      · rw [if_pos h2] at h
        exact absurd h (by simp)
      · rw [if_neg h2] at h
        simp only [Option.some.injEq, Prod.mk.injEq] at h
        obtain ⟨-, -, hszs⟩ := h
        intro d hd
        rw [← hszs] at hd
        simp only [List.mem_singleton] at hd
        subst hd
        exact ⟨h1, hxd⟩
    · rw [if_neg h1] at h
      simp only [Option.some.injEq, Prod.mk.injEq] at h
      obtain ⟨-, -, hszs⟩ := h
      intro d hd
      rw [← hszs] at hd
      simp at hd
  | succ f ih =>
    intro i curtok gc comp xd val g c szs hxd h
    unfold scanLoopSizes at h
    by_cases h1 : 0 ≤ hex_digit_value (charAt s i)
    · rw [if_pos h1] at h
      by_cases h2 : xd = 4
      · rw [if_pos h2] at h
        exact absurd h (by simp)
      · rw [if_neg h2] at h
        by_cases h3 : val * 16 + (hex_digit_value (charAt s i)).toNat > 0xffff
        · rw [if_pos h3] at h
          exact absurd h (by simp)
        · rw [if_neg h3] at h
          exact ih (i+1) curtok gc comp (xd+1) _ g c szs (by omega) h
    · rw [if_neg h1] at h
      by_cases h2 : charAt s i = ':'
      · rw [if_pos h2] at h
        by_cases h3 : xd = 0
        · rw [if_pos h3] at h
          by_cases h4 : comp = true
          · rw [if_pos h4] at h
            exact absurd h (by simp)
          · rw [if_neg h4] at h
            exact ih (i+1) (i+1) gc true 0 val g c szs (by omega) h
        · rw [if_neg h3] at h
          by_cases h4 : i + 1 = e
          · rw [if_pos h4] at h
            exact absurd h (by simp)
          · rw [if_neg h4] at h
            by_cases h5 : gc + 1 > 8
            · rw [if_pos h5] at h
              exact absurd h (by simp)
            · rw [if_neg h5] at h
              cases hr : scanLoopSizes s e f (i+1) (i+1) (gc+1) comp 0 0 with
              | none =>
                rw [hr] at h
                exact absurd h (by simp)
              | some t =>
                obtain ⟨g0, c0, szs0⟩ := t
                rw [hr] at h
                simp only [Option.some.injEq, Prod.mk.injEq] at h
                obtain ⟨-, -, hszs⟩ := h
                intro d hd
                rw [← hszs] at hd
                rcases List.mem_cons.mp hd with hdx | hdx
                · subst hdx
                  exact ⟨by omega, hxd⟩
                · exact ih (i+1) (i+1) (gc+1) comp 0 0 g0 c0 szs0 (by omega) hr d hdx
      · rw [if_neg h2] at h
        by_cases h3 : charAt s i = '.' ∧ 0 < xd
        · rw [if_pos h3] at h
          split at h
          · exact absurd h (by simp)
          · rename_i dots heq
            by_cases h4 : dots ≠ 3
            · rw [if_pos h4] at h
              exact absurd h (by simp)
            · rw [if_neg h4] at h
              by_cases h5 : is_valid_ipv4_core (List.drop curtok s) = true
              · rw [if_pos h5] at h
                simp only [Option.some.injEq, Prod.mk.injEq] at h
                obtain ⟨-, -, hszs⟩ := h
                intro d hd
                rw [← hszs] at hd
                simp at hd
              · rw [if_neg h5] at h
                exact absurd h (by simp)
        · rw [if_neg h3] at h
          exact absurd h (by simp)

/-- C7: the instrumented scan refines the real one
(`ipv6Scan = erase ∘ ipv6ScanSizes`), every completed group it records
holds between 1 and 4 hex digits, a hex digit arriving with
`xdigits_seen = 4` immediately rejects, and the concrete 5-digit group
"11111::" is rejected. -/
theorem c7_group_digit_bounds :
    (∀ s : List Char, ipv6Scan s = Option.map (fun t => (t.1, t.2.1)) (ipv6ScanSizes s)) ∧
      (∀ (s : List Char) (g : Nat) (c : Bool) (szs : List Nat),
        ipv6ScanSizes s = some (g, c, szs) → ∀ d ∈ szs, 1 ≤ d ∧ d ≤ 4) ∧
      (∀ (s : List Char) (e f i curtok gc val : Nat) (comp : Bool),
        0 ≤ hex_digit_value (charAt s i) →
        scanLoop s e (f+1) i curtok gc comp 4 val = none) ∧
      is_valid_ipv6_address (some (str "11111::")) = false := by
  refine ⟨ipv6ScanSizes_agree, ?_, ?_, by decide⟩
  · intro s g c szs h
    unfold ipv6ScanSizes at h
    by_cases h1 : charAt s 0 = '\x00'
    · rw [if_pos h1] at h
      exact absurd h (by simp)
    · rw [if_neg h1] at h
      by_cases h2 : strnlen s 46 = 0
      · rw [if_pos h2] at h
        exact absurd h (by simp)
      · rw [if_neg h2] at h
        by_cases h3 : charAt s 0 = ':'
        · rw [if_pos h3] at h
          by_cases h4 : 1 = strnlen s 46
          · rw [if_pos h4] at h
            exact absurd h (by simp)
          · rw [if_neg h4] at h
            by_cases h5 : charAt s 1 ≠ ':'
            · rw [if_pos h5] at h
              exact absurd h (by simp)
            · rw [if_neg h5] at h
              exact scanLoopSizes_bounds s _ _ _ _ _ _ _ _ g c szs (by omega) h
        · rw [if_neg h3] at h
          exact scanLoopSizes_bounds s _ _ _ _ _ _ _ _ g c szs (by omega) h
  · intro s e f i curtok gc val comp h
    unfold scanLoop
    rw [if_pos h, if_pos rfl]

/-- C7 witness: the size bound applied to the concrete scan of "1:2::",
whose recorded group sizes are `[1, 1]`. -/
theorem c7_group_digit_bounds_witness :
    ipv6ScanSizes (str "1:2::") = some (2, true, [1, 1]) ∧
      ∀ d ∈ ([1, 1] : List Nat), 1 ≤ d ∧ d ≤ 4 :=
  ⟨by decide, fun d hd => c7_group_digit_bounds.2.1 (str "1:2::") 2 true [1, 1] (by decide) d hd⟩

theorem drop_cons_succ : ∀ (s : List Char) (p : Nat) (c : Char) (l : List Char),
    s.drop p = c :: l → charAt s p = c ∧ s.drop (p+1) = l := by
  intro s
  induction s with
  | nil => intro p c l h; simp at h
  | cons a t ih =>
    intro p c l h
    cases p with
    | zero =>
      simp only [List.drop_zero] at h
      injection h with h1 h2
      subst h1
      subst h2
      exact ⟨by simp [charAt], by simp⟩
    | succ q =>
      simp only [List.drop_succ_cons] at h
      obtain ⟨h1, h2⟩ := ih q c l h
      refine ⟨?_, by simpa using h2⟩
      simpa [charAt, List.getD_cons_succ] using h1

theorem checkDots_spec (s : List Char) : ∀ (fuel p d : Nat), p + fuel = s.length →
    checkDots s fuel p d =
      if (∀ c ∈ s.drop p, c = '.' ∨ isDigitChar c = true)
      then some (d + (s.drop p).count '.') else none := by
  intro fuel
  induction fuel with
  | zero =>
    intro p d hpf
    have hdrop : s.drop p = [] := List.drop_eq_nil_of_le (by omega)
    simp [checkDots, hdrop]
  | succ f ih =>
    intro p d hpf
    cases hd : s.drop p with
    | nil =>
      have : (s.drop p).length = 0 := by rw [hd]; rfl
      rw [List.length_drop] at this
      omega
    | cons c l =>
      obtain ⟨hc, hl⟩ := drop_cons_succ s p c l hd
      simp only [checkDots, hc]
      by_cases hcd : c = '.'
      · rw [if_pos hcd, ih (p+1) (d+1) (by omega), hl]
        subst hcd
        by_cases hP : ∀ x ∈ l, x = '.' ∨ isDigitChar x = true
        · rw [if_pos hP, if_pos ?_]
          · simp only [List.count_cons_self, Option.some.injEq]
            omega
          · intro x hx
            rcases List.mem_cons.mp hx with h | h
            · exact Or.inl h
            · exact hP x h
        · rw [if_neg hP, if_neg ?_]
          intro hAll
          exact hP fun x hx => hAll x (List.mem_cons_of_mem _ hx)
      · rw [if_neg hcd]
        by_cases hdig : isDigitChar c = true
        · rw [if_neg (by simp [hdig]), ih (p+1) d (by omega), hl]
          by_cases hP : ∀ x ∈ l, x = '.' ∨ isDigitChar x = true
          · rw [if_pos hP, if_pos ?_]
            · rw [List.count_cons_of_ne fun h => hcd h.symm]
            · intro x hx
              rcases List.mem_cons.mp hx with h | h
              · subst h; exact Or.inr hdig
              · exact hP x h
          · rw [if_neg hP, if_neg ?_]
            intro hAll
            exact hP fun x hx => hAll x (List.mem_cons_of_mem _ hx)
        · rw [if_pos (by simp [hdig]), if_neg ?_]
          intro hAll
          rcases hAll c (List.mem_cons_self c l) with h | h
          · exact hcd h
          · exact hdig h

/-- C4 (amended): with the scan endpoint at the string's end — the real
scan state whenever the input fits the 46-character window — a `'.'`
with pending hex digits accepts the rest exactly when the remainder
from the current token start consists only of digits and dots, contains
exactly 3 dots, and passes the IPv4 validator; on success it
contributes exactly 2 groups and the scan terminates, and a `'.'` with
no pending hex digits rejects.  For longer inputs the dot/digit check
covers only the window while the IPv4 delegation reads the untruncated
string, so the unrestricted rule fails (see the counterexample). -/
theorem c4_embedded_ipv4 :
    (∀ (s : List Char) (f i curtok gc xd val : Nat) (comp : Bool),
        curtok ≤ s.length → charAt s i = '.' → 0 < xd →
        scanLoop s s.length (f+1) i curtok gc comp xd val =
          if ((∀ c ∈ s.drop curtok, c = '.' ∨ isDigitChar c = true) ∧
                (s.drop curtok).count '.' = 3 ∧
                is_valid_ipv4_core (s.drop curtok) = true)
          then some (gc + 2, comp) else none) ∧
    (∀ (s : List Char) (e f i curtok gc val : Nat) (comp : Bool),
        charAt s i = '.' → scanLoop s e (f+1) i curtok gc comp 0 val = none) := by
  constructor
  · intro s f i curtok gc xd val comp hct hdot hxd
    unfold scanLoop
    rw [hdot]
    rw [if_neg (by decide), if_neg (by decide), if_pos ⟨rfl, hxd⟩,
      checkDots_spec s (s.length - curtok) curtok 0 (by omega)]
    split
    · rename_i heq
      by_cases hP : ∀ c ∈ List.drop curtok s, c = '.' ∨ isDigitChar c = true
      · rw [if_pos hP] at heq
        exact absurd heq (by simp)
      · rw [if_neg ?_]
        rintro ⟨hp, -, -⟩
        exact hP hp
    · rename_i dots heq
      by_cases hP : ∀ c ∈ List.drop curtok s, c = '.' ∨ isDigitChar c = true
      · rw [if_pos hP] at heq
        have hdots : dots = 0 + (List.drop curtok s).count '.' := (Option.some.inj heq).symm
        subst hdots
        by_cases h3 : (List.drop curtok s).count '.' = 3
        · rw [if_neg (by omega)]
          by_cases h4 : is_valid_ipv4_core (List.drop curtok s) = true
          · rw [if_pos h4, if_pos ⟨hP, h3, h4⟩]
          · rw [if_neg h4, if_neg ?_]
            rintro ⟨-, -, hc⟩
            exact h4 hc
        · rw [if_pos (by omega), if_neg ?_]
          rintro ⟨-, hc, -⟩
          exact h3 hc
      · rw [if_neg hP] at heq
        exact absurd heq (by simp)
  · intro s e f i curtok gc val comp hdot
    unfold scanLoop
    rw [hdot]
    rw [if_neg (by decide), if_neg (by decide), if_neg (by simp)]

/-- C4 witness: the embedded-IPv4 equation applied at the `'.'` of the
concrete input "::ffff:192.0.2.128" (cursor 10, token start 7, one
closed group, compression seen, 3 pending digits). -/
theorem c4_embedded_ipv4_witness :
    (7 ≤ (str "::ffff:192.0.2.128").length ∧
        charAt (str "::ffff:192.0.2.128") 10 = '.') ∧
      scanLoop (str "::ffff:192.0.2.128") (str "::ffff:192.0.2.128").length 9 10 7 1 true 3 402 =
        some (3, true) := by
  refine ⟨⟨by decide, by decide⟩, ?_⟩
  rw [c4_embedded_ipv4.1 (str "::ffff:192.0.2.128") 8 10 7 1 3 402 true (by decide) (by decide)
    (by decide)]
  rw [if_pos ⟨by decide, by decide, by decide⟩]

/-- C4 counterexample: on the accepted 50-character input below the scan
meets a `'.'` at cursor 34 with 4 pending hex digits and token start 30,
and accepts with final group count 8 — although the remainder of the
string from the token start, "0255.255.255.255.:::", contains four dots
and colon characters, and material follows the IPv4 suffix.  The
dot/digit check covers only the 46-character scan window while the IPv4
delegation reads the untruncated string, so the rule as originally
stated (over the whole remainder, with nothing following) is false. -/
theorem c4_counterexample :
    charAt (str "0000:0000:0000:0000:0000:0000:0255.255.255.255.:::") 34 = '.' ∧
      scanLoop (str "0000:0000:0000:0000:0000:0000:0255.255.255.255.:::")
        (strnlen (str "0000:0000:0000:0000:0000:0000:0255.255.255.255.:::") 46) 12 34 30 6
        false 4 597 = some (8, false) ∧
      (List.drop 30 (str "0000:0000:0000:0000:0000:0000:0255.255.255.255.:::")).count '.' = 4 ∧
      ':' ∈ List.drop 30 (str "0000:0000:0000:0000:0000:0000:0255.255.255.255.:::") ∧
      is_valid_ipv6_address
        (some (str "0000:0000:0000:0000:0000:0000:0255.255.255.255.:::")) = true :=
  ⟨by decide, by decide, by decide, by decide, by decide⟩

theorem charAt_ne_nul (s : List Char) (i : Nat) (hnul : '\x00' ∉ s) (h : i < s.length) :
    charAt s i ≠ '\x00' := by
  unfold charAt
  rw [List.getD_eq_getElem s '\x00' h]
  intro hc
  exact hnul (hc ▸ List.getElem_mem h)

theorem charAt_default (s : List Char) (i : Nat) (h : s.length ≤ i) :
    charAt s i = '\x00' := by
  unfold charAt
  rw [List.getD_eq_default]
  exact h

theorem parseIntGo_eq_list (s : List Char) (rest : List Char) :
    ∀ (pend : List Char) (start acc : Nat),
      List.drop start s = pend ++ rest →
      parseIntGo s pend.length start acc = parseIntList pend acc := by
  intro pend
  induction pend with
  | nil => intro start acc _; rfl
  | cons c t ih =>
    intro start acc hdrop
    obtain ⟨hc, ht⟩ := drop_cons_succ s start c (t ++ rest) (by simpa using hdrop)
    simp only [List.length_cons, parseIntGo, parseIntList, hc]
    split
    · rfl
    · split
      · rfl
      · exact ih (start+1) _ ht

theorem parse_int_eq_list (s : List Char) (hnul : '\x00' ∉ s) (pend r : List Char)
    (start i : Nat) (hlt : start < i) (hile : 0 < s.length)
    (hdrops : List.drop start s = pend ++ r) (hplen : pend.length = i - start) :
    parse_int s start i = parseIntList pend 0 := by
  unfold parse_int
  rw [if_neg (by omega), if_neg (charAt_ne_nul s 0 hnul hile),
    show i - start = pend.length from hplen.symm]
  exact parseIntGo_eq_list s r pend start 0 hdrops

theorem ipv4Loop_eq_ref (s : List Char) (hnul : '\x00' ∉ s) :
    ∀ (r pend : List Char) (i start cnt : Nat),
      start ≤ i → i ≤ s.length →
      List.drop i s = r → List.drop start s = pend ++ r →
      ipv4Loop s (s.length + 1 - i) i start cnt = ipv4Ref pend cnt r := by
  intro r
  induction r with
  | nil =>
    intro pend i start cnt hsi hile hdropi hdrops
    have hi : i = s.length := by
      have h1 := congrArg List.length hdropi
      rw [List.length_drop] at h1
      simp only [List.length_nil] at h1
      omega
    have hplen : pend.length = i - start := by
      have h2 := congrArg List.length hdrops
      rw [List.length_drop, List.length_append, List.length_nil] at h2
      omega
    rw [show s.length + 1 - i = 0 + 1 from by omega]
    have hterm : charAt s i = '\x00' := charAt_default s i (by omega)
    unfold ipv4Loop
    rw [hterm, if_pos (by decide)]
    by_cases hpe : pend = []
    · have hieq : i = start := by
        subst hpe
        simp only [List.length_nil] at hplen
        omega
      rw [if_pos hieq]
      subst hpe
      rfl
    · have hlt : start < i := by
        rcases Nat.lt_or_ge start i with h | h
        · exact h
        · exact absurd (List.eq_nil_of_length_eq_zero (by omega)) hpe
      rw [if_neg (show ¬(i = start) from by omega)]
      rw [parse_int_eq_list s hnul pend [] start i hlt (by omega) hdrops hplen]
      unfold ipv4Ref
      rw [if_neg (show ¬(pend.isEmpty = true) from by simpa using hpe)]
      cases hv : parseIntList pend 0 with
      | none => simp only [hv]
      | some v =>
        simp only [hv]
        by_cases h255 : v > 255
        · rw [if_pos h255, if_pos h255]
        · rw [if_neg h255, if_neg h255]
          simp
  | cons c rl ih =>
    intro pend i start cnt hsi hile hdropi hdrops
    obtain ⟨hc, hdropi1⟩ := drop_cons_succ s i c rl hdropi
    have hilt : i < s.length := by
      have h1 := congrArg List.length hdropi
      rw [List.length_drop] at h1
      simp only [List.length_cons] at h1
      omega
    have hplen : pend.length = i - start := by
      have h2 := congrArg List.length hdrops
      have h1 := congrArg List.length hdropi
      rw [List.length_drop, List.length_append] at h2
      rw [List.length_drop] at h1
      omega
    rw [show s.length + 1 - i = (s.length - i) + 1 from by omega]
    unfold ipv4Loop
    rw [hc]
    by_cases hcd : c = '.'
    · subst hcd
      rw [if_pos (by decide)]
      unfold ipv4Ref
      rw [if_pos rfl]
      by_cases hpe : pend = []
      · have hieq : i = start := by
          subst hpe
          simp only [List.length_nil] at hplen
          omega
        rw [if_pos hieq]
        subst hpe
        rw [if_pos (by decide)]
      · have hlt : start < i := by
          rcases Nat.lt_or_ge start i with h | h
          · exact h
          · exact absurd (List.eq_nil_of_length_eq_zero (by omega)) hpe
        rw [if_neg (show ¬(i = start) from by omega),
          if_neg (show ¬(pend.isEmpty = true) from by simpa using hpe),
          parse_int_eq_list s hnul pend ('.' :: rl) start i hlt (by omega) hdrops hplen]
        cases hv : parseIntList pend 0 with
        | none => simp only [hv]
        | some v =>
          simp only [hv]
          by_cases h255 : v > 255
          · rw [if_pos h255, if_pos h255]
          · rw [if_neg h255, if_neg h255, if_neg (by decide)]
            rw [show s.length - i = s.length + 1 - (i+1) from by omega]
            exact ih [] (i+1) (i+1) (cnt+1) (Nat.le_refl _) (by omega) hdropi1
              (by simpa using hdropi1)
    · have hcnn : c ≠ '\x00' := by
        intro he
        apply hnul
        rw [← he]
        have : c ∈ List.drop i s := by
          rw [hdropi]
          exact List.mem_cons_self c rl
        exact List.mem_of_mem_drop this
      rw [if_neg (by simp [hcd, hcnn])]
      unfold ipv4Ref
      rw [if_neg hcd]
      by_cases hdig : isDigitChar c = true
      · rw [if_neg (by simp [hdig]), if_neg (by simp [hdig])]
        rw [show s.length - i = s.length + 1 - (i+1) from by omega]
        refine ih (pend ++ [c]) (i+1) start cnt (by omega) (by omega) hdropi1 ?_
        rw [hdrops, List.append_assoc]
        rfl
      · rw [if_pos (by simp [hdig]), if_pos (by simp [hdig])]

theorem ipv4_core_eq_ref (s : List Char) (hnul : '\x00' ∉ s) (hl16 : s.length ≤ 16) :
    is_valid_ipv4_core s = ipv4Ref [] 0 s := by
  unfold is_valid_ipv4_core
  rw [show strnlen s 16 = s.length from by unfold strnlen; omega]
  have h := ipv4Loop_eq_ref s hnul s [] 0 0 0 (Nat.le_refl 0) (by omega) (by simp) (by simp)
  simpa using h

theorem foldl_decVal_ge (l : List Char) : ∀ acc : Nat,
    acc ≤ l.foldl (fun a c => a * 10 + digitVal c) acc := by
  induction l with
  | nil => intro acc; simp
  | cons c t ih =>
    intro acc
    simp only [List.foldl_cons]
    exact Nat.le_trans (by omega) (ih (acc * 10 + digitVal c))

theorem parseIntList_sound (l : List Char) : ∀ (acc v : Nat), acc ≤ 255 →
    parseIntList l acc = some v →
    l.all isDigitChar = true ∧ v = l.foldl (fun a c => a * 10 + digitVal c) acc ∧ v ≤ 255 := by
  induction l with
  | nil =>
    intro acc v hacc h
    unfold parseIntList at h
    obtain rfl : acc = v := Option.some.inj h
    exact ⟨rfl, by simp, hacc⟩
  | cons c t ih =>
    intro acc v hacc h
    unfold parseIntList at h
    by_cases hd : isDigitChar c = true
    · rw [if_neg (show ¬((!isDigitChar c) = true) from by simp [hd])] at h
      split at h
      · exact absurd h (by simp)
      · rename_i hov
        have h9 := digitVal_le_nine c hd
        simp only [Bool.or_eq_true, Bool.and_eq_true, decide_eq_true_eq, beq_iff_eq,
          not_or, not_and] at hov
        obtain ⟨ha, hval, hle⟩ := ih _ v (by omega) h
        refine ⟨?_, ?_, hle⟩
        · simp [List.all_cons, hd, ha]
        · simp [List.foldl_cons, hval]
    · rw [if_pos (show (!isDigitChar c) = true from by simp [hd])] at h
      exact absurd h (by simp)

theorem parseIntList_complete (l : List Char) : ∀ acc : Nat,
    l.all isDigitChar = true →
    l.foldl (fun a c => a * 10 + digitVal c) acc ≤ 255 →
    parseIntList l acc = some (l.foldl (fun a c => a * 10 + digitVal c) acc) := by
  induction l with
  | nil => intro acc _ _; rfl
  | cons c t ih =>
    intro acc hall hle
    simp only [List.all_cons, Bool.and_eq_true] at hall
    obtain ⟨hd, hall⟩ := hall
    simp only [List.foldl_cons] at hle ⊢
    unfold parseIntList
    rw [if_neg (show ¬((!isDigitChar c) = true) from by simp [hd])]
    rw [if_neg ?_]
    · exact ih _ hall hle
    · have hge := foldl_decVal_ge t (acc * 10 + digitVal c)
      simp only [Bool.or_eq_true, Bool.and_eq_true, decide_eq_true_eq, beq_iff_eq,
        not_or, not_and]
      omega

theorem splitDots_ne_nil (r : List Char) : splitDots r ≠ [] := by
  cases r with
  | nil => simp [splitDots]
  | cons c t =>
    unfold splitDots
    by_cases h : c = '.'
    · simp [h]
    · rw [if_neg h]
      cases splitDots t with
      | nil => simp
      | cons a b => simp

theorem splitDots_no_dot (d : List Char) (hd : '.' ∉ d) : splitDots d = [d] := by
  induction d with
  | nil => rfl
  | cons c t ih =>
    unfold splitDots
    rw [if_neg (fun h => hd (by rw [← h]; exact List.mem_cons_self c t))]
    rw [ih (fun h => hd (List.mem_cons_of_mem c h))]

theorem splitDots_append (a r : List Char) (ha : '.' ∉ a) :
    splitDots (a ++ '.' :: r) = a :: splitDots r := by
  induction a with
  | nil => rfl
  | cons c t ih =>
    have hc : ¬(c = '.') := fun h => ha (by rw [← h]; exact List.mem_cons_self c t)
    have ht : '.' ∉ t := fun h => ha (List.mem_cons_of_mem c h)
    simp only [List.cons_append, splitDots, List.append_eq]
    rw [if_neg hc, ih ht]

theorem ipv4Ref_iff_spec (r : List Char) : ∀ (pend : List Char) (cnt : Nat),
    ipv4Ref pend cnt r = true ↔
      (cnt + (splitDots r).length = 4 ∧
        ∀ p ∈ (pend ++ (splitDots r).headI) :: (splitDots r).tail, okSeg p = true) := by
  induction r with
  | nil =>
    intro pend cnt
    show ipv4Ref pend cnt [] = true ↔
      (cnt + 1 = 4 ∧ ∀ p ∈ [pend ++ []], okSeg p = true)
    unfold ipv4Ref
    by_cases hpe : pend = []
    · rw [if_pos (show pend.isEmpty = true from by simp [hpe])]
      constructor
      · intro h
        exact absurd h (by simp)
      · rintro ⟨-, hok⟩
        have h1 := hok (pend ++ []) (List.mem_singleton.mpr rfl)
        rw [hpe] at h1
        exact absurd h1 (by decide)
    · rw [if_neg (show ¬(pend.isEmpty = true) from by simpa using hpe)]
      cases hv : parseIntList pend 0 with
      | none =>
        simp only [hv]
        constructor
        · intro h
          exact absurd h (by simp)
        · rintro ⟨-, hok⟩
          have hokp := hok (pend ++ []) (List.mem_singleton.mpr rfl)
          simp only [List.append_nil] at hokp
          unfold okSeg at hokp
          simp only [Bool.and_eq_true, Bool.not_eq_true', decide_eq_true_eq] at hokp
          obtain ⟨⟨-, hall⟩, hdec⟩ := hokp
          unfold decVal at hdec
          rw [parseIntList_complete pend 0 hall hdec] at hv
          exact absurd hv (by simp)
      | some v =>
        simp only [hv]
        by_cases h255 : v > 255
        · rw [if_pos h255]
          constructor
          · intro h
            exact absurd h (by simp)
          · rintro ⟨-, hok⟩
            have hokp := hok (pend ++ []) (List.mem_singleton.mpr rfl)
            simp only [List.append_nil] at hokp
            unfold okSeg at hokp
            simp only [Bool.and_eq_true, Bool.not_eq_true', decide_eq_true_eq] at hokp
            obtain ⟨⟨-, hall⟩, hdec⟩ := hokp
            unfold decVal at hdec
            rw [parseIntList_complete pend 0 hall hdec] at hv
            have := Option.some.inj hv
            omega
        · rw [if_neg h255]
          obtain ⟨hall, hval, hle⟩ := parseIntList_sound pend 0 v (by omega) hv
          constructor
          · intro h
            have hcnt : cnt + 1 = 4 := by simpa using h
            refine ⟨hcnt, ?_⟩
            intro p hp
            rw [List.mem_singleton.mp hp, List.append_nil]
            unfold okSeg
            simp only [Bool.and_eq_true, Bool.not_eq_true', decide_eq_true_eq]
            refine ⟨⟨by simpa using hpe, hall⟩, ?_⟩
            unfold decVal
            omega
          · rintro ⟨hcnt, -⟩
            simpa using hcnt
  | cons c t ih =>
    intro pend cnt
    cases hspt : splitDots t with
    | nil => exact absurd hspt (splitDots_ne_nil t)
    | cons hh tt =>
      by_cases hcd : c = '.'
      · subst hcd
        have hsp : splitDots ('.' :: t) = [] :: hh :: tt := by
          unfold splitDots
          rw [if_pos rfl, hspt]
        rw [hsp]
        simp only [List.headI_cons, List.tail_cons, List.length_cons, List.append_nil]
        unfold ipv4Ref
        rw [if_pos rfl]
        by_cases hpe : pend = []
        · rw [if_pos (show pend.isEmpty = true from by simp [hpe])]
          constructor
          · intro h
            exact absurd h (by simp)
          · rintro ⟨-, hok⟩
            have h1 := hok pend (List.mem_cons_self _ _)
            rw [hpe] at h1
            exact absurd h1 (by decide)
        · rw [if_neg (show ¬(pend.isEmpty = true) from by simpa using hpe)]
          cases hv : parseIntList pend 0 with
          | none =>
            simp only [hv]
            constructor
            · intro h
              exact absurd h (by simp)
            · rintro ⟨-, hok⟩
              have hokp := hok pend (List.mem_cons_self _ _)
              unfold okSeg at hokp
              simp only [Bool.and_eq_true, Bool.not_eq_true', decide_eq_true_eq] at hokp
              obtain ⟨⟨-, hall⟩, hdec⟩ := hokp
              unfold decVal at hdec
              rw [parseIntList_complete pend 0 hall hdec] at hv
              exact absurd hv (by simp)
          | some v =>
            simp only [hv]
            by_cases h255 : v > 255
            · rw [if_pos h255]
              constructor
              · intro h
                exact absurd h (by simp)
              · rintro ⟨-, hok⟩
                have hokp := hok pend (List.mem_cons_self _ _)
                unfold okSeg at hokp
                simp only [Bool.and_eq_true, Bool.not_eq_true', decide_eq_true_eq] at hokp
                obtain ⟨⟨-, hall⟩, hdec⟩ := hokp
                unfold decVal at hdec
                rw [parseIntList_complete pend 0 hall hdec] at hv
                have := Option.some.inj hv
                omega
            · rw [if_neg h255]
              rw [ih [] (cnt + 1), hspt]
              simp only [List.headI_cons, List.tail_cons, List.length_cons, List.nil_append]
              obtain ⟨hall, hval, hle⟩ := parseIntList_sound pend 0 v (by omega) hv
              have hokpend : okSeg pend = true := by
                unfold okSeg
                simp only [Bool.and_eq_true, Bool.not_eq_true', decide_eq_true_eq]
                refine ⟨⟨by simpa using hpe, hall⟩, ?_⟩
                unfold decVal
                omega
              constructor
              · rintro ⟨hlen, hok⟩
                refine ⟨by omega, ?_⟩
                intro p hp
                rcases List.mem_cons.mp hp with hp | hp
                · rw [hp]
                  exact hokpend
                · exact hok p hp
              · rintro ⟨hlen, hok⟩
                refine ⟨by omega, ?_⟩
                intro p hp
                exact hok p (List.mem_cons_of_mem _ hp)
      · have hsp : splitDots (c :: t) = (c :: hh) :: tt := by
          unfold splitDots
          rw [if_neg hcd, hspt]
        rw [hsp]
        simp only [List.headI_cons, List.tail_cons, List.length_cons]
        unfold ipv4Ref
        rw [if_neg hcd]
        by_cases hdig : isDigitChar c = true
        · rw [if_neg (show ¬((!isDigitChar c) = true) from by simp [hdig])]
          rw [ih (pend ++ [c]) cnt, hspt]
          simp only [List.headI_cons, List.tail_cons, List.length_cons]
          rw [show (pend ++ [c]) ++ hh = pend ++ (c :: hh) from by simp]
        · rw [if_pos (show (!isDigitChar c) = true from by simp [hdig])]
          constructor
          · intro h
            exact absurd h (by simp)
          · rintro ⟨-, hok⟩
            have hokp := hok (pend ++ c :: hh) (List.mem_cons_self _ _)
            unfold okSeg at hokp
            simp only [Bool.and_eq_true, Bool.not_eq_true', decide_eq_true_eq] at hokp
            obtain ⟨⟨-, hall⟩, -⟩ := hokp
            rw [List.all_eq_true] at hall
            exact absurd (hall c (by simp)) hdig

theorem ipv4_core_iff_spec (s : List Char) (hnul : '\x00' ∉ s) (hl16 : s.length ≤ 16) :
    is_valid_ipv4_core s = true ↔ ipv4SpecOk s = true := by
  rw [ipv4_core_eq_ref s hnul hl16, ipv4Ref_iff_spec s [] 0]
  unfold ipv4SpecOk
  cases hsp : splitDots s with
  | nil => exact absurd hsp (splitDots_ne_nil s)
  | cons hh tt =>
    simp only [List.headI_cons, List.tail_cons, List.nil_append, List.length_cons,
      Bool.and_eq_true, beq_iff_eq, List.all_eq_true, Nat.zero_add]

/-- C1 (amended): for every NUL-free string of length at most 16 (within
the scan window), acceptance is equivalent to the spec-side condition:
exactly four dot-separated segments, each non-empty, all ASCII digits,
each of value at most 255. -/
theorem c1_ipv4_iff_spec (s : List Char) (hnul : '\x00' ∉ s) (hlen : s.length ≤ 16) :
    is_valid_ipv4_address (some s) = true ↔ ipv4SpecOk s = true :=
  ipv4_core_iff_spec s hnul hlen

/-- C1 witness: the equivalence applied to the concrete input
"192.168.1.1". -/
theorem c1_ipv4_iff_spec_witness :
    ('\x00' ∉ str "192.168.1.1" ∧ (str "192.168.1.1").length ≤ 16) ∧
      (is_valid_ipv4_address (some (str "192.168.1.1")) = true ↔
        ipv4SpecOk (str "192.168.1.1") = true) :=
  ⟨⟨by decide, by decide⟩, c1_ipv4_iff_spec (str "192.168.1.1") (by decide) (by decide)⟩

/-- C1 counterexample: the 17-character string "1.1.1.1.111111111" has
five dot-separated segments (the last far above 255), so the spec-side
predicate rejects it, yet `is_valid_ipv4_address` accepts it because the
scan is truncated at `strnlen(str, 16)`. -/
theorem c1_counterexample :
    is_valid_ipv4_address (some (str "1.1.1.1.111111111")) = true ∧
      ipv4SpecOk (str "1.1.1.1.111111111") = false :=
  ⟨by decide, by decide⟩

theorem okSeg_digits (l : List Char) (h : okSeg l = true) :
    l ≠ [] ∧ l.all isDigitChar = true ∧ decVal l ≤ 255 := by
  unfold okSeg at h
  simp only [Bool.and_eq_true, Bool.not_eq_true', decide_eq_true_eq] at h
  obtain ⟨⟨he, hall⟩, hdec⟩ := h
  exact ⟨by simpa using he, hall, hdec⟩

theorem no_dot_of_digits (l : List Char) (h : l.all isDigitChar = true) : '.' ∉ l := by
  intro hm
  rw [List.all_eq_true] at h
  exact absurd (h '.' hm) (by decide)

theorem nul_not_of_digits (l : List Char) (h : l.all isDigitChar = true) : '\x00' ∉ l := by
  intro hm
  rw [List.all_eq_true] at h
  exact absurd (h '\x00' hm) (by decide)

theorem quad_spec (a b c d : List Char) (ha : okSeg a = true) (hb : okSeg b = true)
    (hc : okSeg c = true) (hd : okSeg d = true) :
    ipv4SpecOk (joinQuad a b c d) = true := by
  obtain ⟨-, haD, -⟩ := okSeg_digits a ha
  obtain ⟨-, hbD, -⟩ := okSeg_digits b hb
  obtain ⟨-, hcD, -⟩ := okSeg_digits c hc
  obtain ⟨-, hdD, -⟩ := okSeg_digits d hd
  unfold ipv4SpecOk joinQuad
  rw [splitDots_append a _ (no_dot_of_digits a haD),
    splitDots_append b _ (no_dot_of_digits b hbD),
    splitDots_append c _ (no_dot_of_digits c hcD),
    splitDots_no_dot d (no_dot_of_digits d hdD)]
  simp [ha, hb, hc, hd]

theorem nul_not_mem_quad (a b c d : List Char) (haD : a.all isDigitChar = true)
    (hbD : b.all isDigitChar = true) (hcD : c.all isDigitChar = true)
    (hdD : d.all isDigitChar = true) : '\x00' ∉ joinQuad a b c d := by
  unfold joinQuad
  intro hm
  simp only [List.mem_append, List.mem_cons] at hm
  rcases hm with h | h | h | h | h | h | h
  · exact nul_not_of_digits a haD h
  · exact absurd h (by decide)
  · exact nul_not_of_digits b hbD h
  · exact absurd h (by decide)
  · exact nul_not_of_digits c hcD h
  · exact absurd h (by decide)
  · exact nul_not_of_digits d hdD h

theorem quad_valid (a b c d : List Char) (ha : okSeg a = true) (hb : okSeg b = true)
    (hc : okSeg c = true) (hd : okSeg d = true)
    (hlen : (joinQuad a b c d).length ≤ 16) :
    is_valid_ipv4_address (some (joinQuad a b c d)) = true := by
  obtain ⟨-, haD, -⟩ := okSeg_digits a ha
  obtain ⟨-, hbD, -⟩ := okSeg_digits b hb
  obtain ⟨-, hcD, -⟩ := okSeg_digits c hc
  obtain ⟨-, hdD, -⟩ := okSeg_digits d hd
  have hnul : '\x00' ∉ joinQuad a b c d := nul_not_mem_quad a b c d haD hbD hcD hdD
  exact (ipv4_core_iff_spec (joinQuad a b c d) hnul hlen).mpr
    (quad_spec a b c d ha hb hc hd)

theorem okSeg_pad (a : List Char) (h : okSeg a = true) : okSeg ('0' :: a) = true := by
  obtain ⟨hne, hall, hdec⟩ := okSeg_digits a h
  unfold okSeg
  simp only [Bool.and_eq_true, Bool.not_eq_true', decide_eq_true_eq]
  refine ⟨⟨by simp, ?_⟩, ?_⟩
  · simp only [List.all_cons, hall, Bool.and_true]
    decide
  · have hpad : decVal ('0' :: a) = decVal a := by
      unfold decVal
      simp only [List.foldl_cons]
      rw [show 0 * 10 + digitVal '0' = 0 from by decide]
    rw [hpad]
    exact hdec

/-- C9 (amended): for any four segments that are non-empty, all-digit and
of value at most 255, the dotted join is accepted and so is any
zero-padded variant, provided the padded string still fits in the
16-character scan window; the integer parse does not special-case
leading zeros. -/
theorem c9_leading_zeros (a b c d : List Char) (k : Nat)
    (ha : okSeg a = true) (hb : okSeg b = true) (hc : okSeg c = true) (hd : okSeg d = true) :
    ((joinQuad a b c d).length ≤ 16 →
        is_valid_ipv4_address (some (joinQuad a b c d)) = true) ∧
      ((padQuad k a b c d).length ≤ 16 →
        is_valid_ipv4_address (some (padQuad k a b c d)) = true) := by
  constructor
  · exact fun hlen => quad_valid a b c d ha hb hc hd hlen
  · intro hlen
    unfold padQuad at hlen ⊢
    by_cases h0 : k = 0
    · rw [if_pos h0] at hlen ⊢
      exact quad_valid _ b c d (okSeg_pad a ha) hb hc hd hlen
    · rw [if_neg h0] at hlen ⊢
      by_cases h1 : k = 1
      · rw [if_pos h1] at hlen ⊢
        exact quad_valid a _ c d ha (okSeg_pad b hb) hc hd hlen
      · rw [if_neg h1] at hlen ⊢
        by_cases h2 : k = 2
        · rw [if_pos h2] at hlen ⊢
          exact quad_valid a b _ d ha hb (okSeg_pad c hc) hd hlen
        · rw [if_neg h2] at hlen ⊢
          exact quad_valid a b c _ ha hb hc (okSeg_pad d hd) hlen

/-- C9 witness: the padding theorem applied to the segments of
"1.2.3.4", padding the first segment. -/
theorem c9_leading_zeros_witness :
    (okSeg (str "1") = true ∧ (joinQuad (str "1") (str "2") (str "3") (str "4")).length ≤ 16 ∧
        (padQuad 0 (str "1") (str "2") (str "3") (str "4")).length ≤ 16) ∧
      is_valid_ipv4_address (some (joinQuad (str "1") (str "2") (str "3") (str "4"))) = true ∧
      is_valid_ipv4_address (some (padQuad 0 (str "1") (str "2") (str "3") (str "4"))) = true := by
  have h := c9_leading_zeros (str "1") (str "2") (str "3") (str "4") 0
    (by decide) (by decide) (by decide) (by decide)
  exact ⟨⟨by decide, by decide, by decide⟩, h.1 (by decide), h.2 (by decide)⟩

/-- C9 counterexample: "0255.255.255.255" has four all-digit, non-empty
segments of value at most 255 and is accepted, yet zero-padding its
first segment once more gives "00255.255.255.255" (17 characters), which
is rejected — so zero-padding does flip the verdict from true to false
once the string outgrows the scan window. -/
theorem c9_counterexample :
    okSeg (str "0255") = true ∧ okSeg (str "255") = true ∧
      str "00255.255.255.255" = padQuad 0 (str "0255") (str "255") (str "255") (str "255") ∧
      is_valid_ipv4_address
        (some (joinQuad (str "0255") (str "255") (str "255") (str "255"))) = true ∧
      is_valid_ipv4_address
        (some (padQuad 0 (str "0255") (str "255") (str "255") (str "255"))) = false :=
  ⟨by decide, by decide, by decide, by decide, by decide⟩

theorem scanLoop_length_bound (s : List Char) (e : Nat) :
    ∀ (fuel i curtok gc : Nat) (comp : Bool) (xd val : Nat),
      i + fuel = e → xd ≤ 4 →
      (∀ j, i ≤ j → j < e → charAt s j ≠ '.') →
      ipv6Finish (scanLoop s e fuel i curtok gc comp xd val) = true →
      fuel + 5 * gc + xd + cond comp 6 0 ≤ 45 := by
  intro fuel
  induction fuel with
  | zero =>
    intro i curtok gc comp xd val hie hxd hnd h
    unfold scanLoop at h
    by_cases h1 : 0 < xd
    · rw [if_pos h1] at h
      by_cases h2 : gc + 1 > 8
      · rw [if_pos h2] at h
        exact absurd h (by simp [ipv6Finish])
      · rw [if_neg h2] at h
        simp only [ipv6Finish] at h
        cases comp with
        | false =>
          simp only [Bool.cond_false]
          simp at h
          omega
        | true =>
          simp only [Bool.cond_true]
          simp at h
          omega
    · rw [if_neg h1] at h
      simp only [ipv6Finish] at h
      cases comp with
      | false =>
        simp only [Bool.cond_false]
        simp at h
        omega
      | true =>
        simp only [Bool.cond_true]
        simp at h
        omega
  | succ f ih =>
    intro i curtok gc comp xd val hie hxd hnd h
    unfold scanLoop at h
    by_cases h1 : 0 ≤ hex_digit_value (charAt s i)
    · rw [if_pos h1] at h
      by_cases h2 : xd = 4
      · rw [if_pos h2] at h
        exact absurd h (by simp [ipv6Finish])
      · rw [if_neg h2] at h
        by_cases h3 : val * 16 + (hex_digit_value (charAt s i)).toNat > 0xffff
        · rw [if_pos h3] at h
          exact absurd h (by simp [ipv6Finish])
        · rw [if_neg h3] at h
          have hb := ih (i+1) curtok gc comp (xd+1) _ (by omega) (by omega)
            (fun j hj1 hj2 => hnd j (by omega) hj2) h
          cases comp with
          | false => simp only [Bool.cond_false] at hb ⊢; omega
          | true => simp only [Bool.cond_true] at hb ⊢; omega
    · rw [if_neg h1] at h
      by_cases h2 : charAt s i = ':'
      · rw [if_pos h2] at h
        by_cases h3 : xd = 0
        · rw [if_pos h3] at h
          by_cases h4 : comp = true
          · rw [if_pos h4] at h
            exact absurd h (by simp [ipv6Finish])
          · rw [if_neg h4] at h
            have hcomp : comp = false := by
              revert h4
              cases comp <;> simp
            subst hcomp
            have hb := ih (i+1) (i+1) gc true 0 val (by omega) (by omega)
              (fun j hj1 hj2 => hnd j (by omega) hj2) h
            simp only [Bool.cond_true] at hb
            simp only [Bool.cond_false]
            omega
        · rw [if_neg h3] at h
          by_cases h4 : i + 1 = e
          · rw [if_pos h4] at h
            exact absurd h (by simp [ipv6Finish])
          · rw [if_neg h4] at h
            by_cases h5 : gc + 1 > 8
            · rw [if_pos h5] at h
              exact absurd h (by simp [ipv6Finish])
            · rw [if_neg h5] at h
              have hb := ih (i+1) (i+1) (gc+1) comp 0 0 (by omega) (by omega)
                (fun j hj1 hj2 => hnd j (by omega) hj2) h
              cases comp with
              | false => simp only [Bool.cond_false] at hb ⊢; omega
              | true => simp only [Bool.cond_true] at hb ⊢; omega
      · rw [if_neg h2] at h
        by_cases h3 : charAt s i = '.' ∧ 0 < xd
        · exact absurd h3.1 (hnd i (Nat.le_refl i) (by omega))
        · rw [if_neg h3] at h
          exact absurd h (by simp [ipv6Finish])

/-- C10 (amended): for every string longer than 45 characters whose
46-character scan window (`INET6_ADDRSTRLEN`) contains no `'.'`,
`is_valid_ipv6_address` returns false; long strings are not rejected in
general, since the embedded-IPv4 delegation reads the untruncated string. -/
theorem c10_window (s : List Char) (hlen : 45 < s.length)
    (hnd : ∀ c ∈ s.take 46, c ≠ '.') :
    is_valid_ipv6_address (some s) = false := by
  have he : strnlen s 46 = 46 := by
    unfold strnlen
    omega
  have hnd' : ∀ j, j < 46 → charAt s j ≠ '.' := by
    intro j hj
    rw [← charAt_take s 46 j hj]
    unfold charAt
    have hjt : j < (s.take 46).length := by
      rw [List.length_take]
      omega
    rw [List.getD_eq_getElem _ '\x00' hjt]
    exact hnd _ (List.getElem_mem hjt)
  show is_valid_ipv6_core s = false
  unfold is_valid_ipv6_core ipv6Scan
  rw [he]
  by_cases h0 : charAt s 0 = '\x00'
  · rw [if_pos h0]
    rfl
  · rw [if_neg h0, if_neg (show ¬(46 = 0) from by omega)]
    by_cases hcol : charAt s 0 = ':'
    · rw [if_pos hcol, if_neg (show ¬(1 = 46) from by omega)]
      by_cases hcol1 : charAt s 1 ≠ ':'
      · rw [if_pos hcol1]
        rfl
      · rw [if_neg hcol1]
        have hc1 : charAt s 1 = ':' := by simpa using hcol1
        rw [show (46 - 1 : Nat) = 44 + 1 from by omega]
        unfold scanLoop
        rw [if_neg (show ¬(0 ≤ hex_digit_value (charAt s 1)) from by rw [hc1]; decide),
          if_pos hc1, if_pos rfl, if_neg (show ¬(false = true) from by simp)]
        cases hfin : ipv6Finish (scanLoop s 46 44 2 2 0 true 0 0) with
        | false => rfl
        | true =>
          have hb := scanLoop_length_bound s 46 44 2 2 0 true 0 0 (by omega) (by omega)
            (fun j hj1 hj2 => hnd' j (by omega)) hfin
          simp only [Bool.cond_true] at hb
          omega
    · rw [if_neg hcol]
      cases hfin : ipv6Finish (scanLoop s 46 46 0 0 0 false 0 0) with
      | false => rfl
      | true =>
        have hb := scanLoop_length_bound s 46 46 0 0 0 false 0 0 (by omega) (by omega)
          (fun j hj1 hj2 => hnd' j (by omega)) hfin
        simp only [Bool.cond_false] at hb
        omega

/-- C10 witness: a 46-character all-hex string with no dot in the window
is rejected, via the amended theorem. -/
theorem c10_window_witness :
    (45 < (str "1111111111111111111111111111111111111111111111").length ∧
        ∀ c ∈ (str "1111111111111111111111111111111111111111111111").take 46, c ≠ '.') ∧
      is_valid_ipv6_address
        (some (str "1111111111111111111111111111111111111111111111")) = false :=
  ⟨⟨by decide, by decide⟩,
    c10_window (str "1111111111111111111111111111111111111111111111") (by decide) (by decide)⟩

/-- C10 counterexample: a 46-character address whose embedded IPv4
suffix uses a zero-padded 16-character dotted quad is longer than 45
characters yet accepted. -/
theorem c10_counterexample :
    45 < (str "0000:0000:0000:0000:0000:0000:0255.255.255.255").length ∧
      is_valid_ipv6_address
        (some (str "0000:0000:0000:0000:0000:0000:0255.255.255.255")) = true :=
  ⟨by decide, by decide⟩

theorem checkDots_colon (s : List Char) :
    ∀ (fuel p d : Nat), (∃ j, p ≤ j ∧ j < p + fuel ∧ charAt s j = ':') →
      checkDots s fuel p d = none := by
  intro fuel
  induction fuel with
  | zero =>
    rintro p d ⟨j, hj1, hj2, -⟩
    omega
  | succ f ih =>
    rintro p d ⟨j, hj1, hj2, hj3⟩
    unfold checkDots
    by_cases hp : charAt s p = '.'
    · rw [if_pos hp]
      apply ih
      refine ⟨j, ?_, by omega, hj3⟩
      rcases Nat.eq_or_lt_of_le hj1 with he | hl
      · exfalso
        rw [← he] at hj3
        rw [hj3] at hp
        exact absurd hp (by decide)
      · omega
    · rw [if_neg hp]
      by_cases hdig : isDigitChar (charAt s p) = true
      · rw [if_neg (show ¬((!isDigitChar (charAt s p)) = true) from by simp [hdig])]
        apply ih
        refine ⟨j, ?_, by omega, hj3⟩
        rcases Nat.eq_or_lt_of_le hj1 with he | hl
        · exfalso
          rw [← he] at hj3
          rw [hj3] at hdig
          exact absurd hdig (by decide)
        · omega
      · rw [if_pos (show (!isDigitChar (charAt s p)) = true from by simp [hdig])]

theorem scan_colon_comp_none (s : List Char) (e f i curtok gc val : Nat)
    (hc : charAt s i = ':') :
    scanLoop s e (f+1) i curtok gc true 0 val = none := by
  unfold scanLoop
  rw [if_neg (show ¬(0 ≤ hex_digit_value (charAt s i)) from by rw [hc]; decide),
    if_pos hc, if_pos rfl, if_pos rfl]

theorem scanLoop_pair_none (s : List Char) (e : Nat) :
    ∀ (fuel i curtok gc xd val : Nat),
      i + fuel = e → curtok ≤ i →
      (∃ j, i ≤ j ∧ j + 1 < e ∧ charAt s j = ':' ∧ charAt s (j+1) = ':') →
      scanLoop s e fuel i curtok gc true xd val = none := by
  intro fuel
  induction fuel with
  | zero =>
    rintro i curtok gc xd val hie hci ⟨j, hj1, hj2, -, -⟩
    omega
  | succ f ih =>
    rintro i curtok gc xd val hie hci ⟨j, hj1, hj2, hj3, hj4⟩
    by_cases hij : i = j
    · subst hij
      by_cases hxd : xd = 0
      · subst hxd
        exact scan_colon_comp_none s e f i curtok gc val hj3
      · unfold scanLoop
        rw [if_neg (show ¬(0 ≤ hex_digit_value (charAt s i)) from by rw [hj3]; decide),
          if_pos hj3, if_neg hxd]
        by_cases hend : i + 1 = e
        · rw [if_pos hend]
        · rw [if_neg hend]
          by_cases hgc : gc + 1 > 8
          · rw [if_pos hgc]
          · rw [if_neg hgc]
            rw [show f = (f - 1) + 1 from by omega]
            exact scan_colon_comp_none s e (f-1) (i+1) (i+1) (gc+1) 0 hj4
    · unfold scanLoop
      by_cases h1 : 0 ≤ hex_digit_value (charAt s i)
      · rw [if_pos h1]
        by_cases h2 : xd = 4
        · rw [if_pos h2]
        · rw [if_neg h2]
          by_cases h3 : val * 16 + (hex_digit_value (charAt s i)).toNat > 0xffff
          · rw [if_pos h3]
          · rw [if_neg h3]
            exact ih (i+1) curtok gc (xd+1) _ (by omega) (by omega)
              ⟨j, by omega, hj2, hj3, hj4⟩
      · rw [if_neg h1]
        by_cases h2 : charAt s i = ':'
        · rw [if_pos h2]
          by_cases h3 : xd = 0
          · rw [if_pos h3, if_pos rfl]
          · rw [if_neg h3]
            by_cases h4 : i + 1 = e
            · rw [if_pos h4]
            · rw [if_neg h4]
              by_cases h5 : gc + 1 > 8
              · rw [if_pos h5]
              · rw [if_neg h5]
                exact ih (i+1) (i+1) (gc+1) 0 0 (by omega) (by omega)
                  ⟨j, by omega, hj2, hj3, hj4⟩
        · rw [if_neg h2]
          by_cases h3 : charAt s i = '.' ∧ 0 < xd
          · rw [if_pos h3]
            rw [checkDots_colon s (e - curtok) curtok 0 ⟨j, by omega, by omega, hj3⟩]
          · rw [if_neg h3]

theorem scanLoop_triple_none (s : List Char) (e : Nat) :
    ∀ (fuel i curtok gc : Nat) (comp : Bool) (xd val : Nat),
      i + fuel = e → curtok ≤ i →
      (∃ j, i ≤ j ∧ j + 2 < e ∧ charAt s j = ':' ∧ charAt s (j+1) = ':' ∧
        charAt s (j+2) = ':') →
      scanLoop s e fuel i curtok gc comp xd val = none := by
  intro fuel
  induction fuel with
  | zero =>
    rintro i curtok gc comp xd val hie hci ⟨j, hj1, hj2, -⟩
    omega
  | succ f ih =>
    rintro i curtok gc comp xd val hie hci ⟨j, hj1, hj2, hj3, hj4, hj5⟩
    cases comp with
    | true =>
      exact scanLoop_pair_none s e (f+1) i curtok gc xd val hie hci
        ⟨j, hj1, by omega, hj3, hj4⟩
    | false =>
      by_cases hij : i = j
      · subst hij
        by_cases hxd : xd = 0
        · subst hxd
          unfold scanLoop
          rw [if_neg (show ¬(0 ≤ hex_digit_value (charAt s i)) from by rw [hj3]; decide),
            if_pos hj3, if_pos rfl, if_neg (show ¬(false = true) from by simp)]
          exact scanLoop_pair_none s e f (i+1) (i+1) gc 0 val (by omega) (by omega)
            ⟨i+1, Nat.le_refl _, by omega, hj4, hj5⟩
        · unfold scanLoop
          rw [if_neg (show ¬(0 ≤ hex_digit_value (charAt s i)) from by rw [hj3]; decide),
            if_pos hj3, if_neg hxd]
          by_cases hend : i + 1 = e
          · rw [if_pos hend]
          · rw [if_neg hend]
            by_cases hgc : gc + 1 > 8
            · rw [if_pos hgc]
            · rw [if_neg hgc]
              rw [show f = (f - 1) + 1 from by omega]
              unfold scanLoop
              rw [if_neg (show ¬(0 ≤ hex_digit_value (charAt s (i+1))) from by
                  rw [hj4]; decide),
                if_pos hj4, if_pos rfl, if_neg (show ¬(false = true) from by simp)]
              rw [show f - 1 = (f - 2) + 1 from by omega]
              exact scan_colon_comp_none s e (f-2) (i+2) (i+2) (gc+1) 0 hj5
      · unfold scanLoop
        by_cases h1 : 0 ≤ hex_digit_value (charAt s i)
        · rw [if_pos h1]
          by_cases h2 : xd = 4
          · rw [if_pos h2]
          · rw [if_neg h2]
            by_cases h3 : val * 16 + (hex_digit_value (charAt s i)).toNat > 0xffff
            · rw [if_pos h3]
            · rw [if_neg h3]
              exact ih (i+1) curtok gc false (xd+1) _ (by omega) (by omega)
                ⟨j, by omega, hj2, hj3, hj4, hj5⟩
        · rw [if_neg h1]
          by_cases h2 : charAt s i = ':'
          · rw [if_pos h2]
            by_cases h3 : xd = 0
            · rw [if_pos h3, if_neg (show ¬(false = true) from by simp)]
              exact scanLoop_pair_none s e f (i+1) (i+1) gc 0 val (by omega) (by omega)
                ⟨j, by omega, by omega, hj3, hj4⟩
            · rw [if_neg h3]
              by_cases h4 : i + 1 = e
              · rw [if_pos h4]
              · rw [if_neg h4]
                by_cases h5 : gc + 1 > 8
                · rw [if_pos h5]
                · rw [if_neg h5]
                  exact ih (i+1) (i+1) (gc+1) false 0 0 (by omega) (by omega)
                    ⟨j, by omega, hj2, hj3, hj4, hj5⟩
          · rw [if_neg h2]
            by_cases h3 : charAt s i = '.' ∧ 0 < xd
            · rw [if_pos h3]
              rw [checkDots_colon s (e - curtok) curtok 0 ⟨j, by omega, by omega, hj3⟩]
            · rw [if_neg h3]

theorem scanLoop_two_pairs_none (s : List Char) (e : Nat) :
    ∀ (fuel i curtok gc : Nat) (comp : Bool) (xd val : Nat),
      i + fuel = e → curtok ≤ i →
      (∃ j k, i ≤ j ∧ j + 1 < k ∧ k + 1 < e ∧ charAt s j = ':' ∧ charAt s (j+1) = ':' ∧
        charAt s k = ':' ∧ charAt s (k+1) = ':') →
      scanLoop s e fuel i curtok gc comp xd val = none := by
  intro fuel
  induction fuel with
  | zero =>
    rintro i curtok gc comp xd val hie hci ⟨j, k, hj1, hjk, hk2, -⟩
    omega
  | succ f ih =>
    rintro i curtok gc comp xd val hie hci ⟨j, k, hj1, hjk, hk2, hj3, hj4, hk3, hk4⟩
    cases comp with
    | true =>
      exact scanLoop_pair_none s e (f+1) i curtok gc xd val hie hci
        ⟨j, hj1, by omega, hj3, hj4⟩
    | false =>
      by_cases hij : i = j
      · subst hij
        by_cases hxd : xd = 0
        · subst hxd
          unfold scanLoop
          rw [if_neg (show ¬(0 ≤ hex_digit_value (charAt s i)) from by rw [hj3]; decide),
            if_pos hj3, if_pos rfl, if_neg (show ¬(false = true) from by simp)]
          exact scanLoop_pair_none s e f (i+1) (i+1) gc 0 val (by omega) (by omega)
            ⟨k, by omega, by omega, hk3, hk4⟩
        · unfold scanLoop
          rw [if_neg (show ¬(0 ≤ hex_digit_value (charAt s i)) from by rw [hj3]; decide),
            if_pos hj3, if_neg hxd]
          by_cases hend : i + 1 = e
          · rw [if_pos hend]
          · rw [if_neg hend]
            by_cases hgc : gc + 1 > 8
            · rw [if_pos hgc]
            · rw [if_neg hgc]
              rw [show f = (f - 1) + 1 from by omega]
              unfold scanLoop
              rw [if_neg (show ¬(0 ≤ hex_digit_value (charAt s (i+1))) from by
                  rw [hj4]; decide),
                if_pos hj4, if_pos rfl, if_neg (show ¬(false = true) from by simp)]
              exact scanLoop_pair_none s e (f-1) (i+2) (i+2) (gc+1) 0 0 (by omega) (by omega)
                ⟨k, by omega, by omega, hk3, hk4⟩
      · unfold scanLoop
        by_cases h1 : 0 ≤ hex_digit_value (charAt s i)
        · rw [if_pos h1]
          by_cases h2 : xd = 4
          · rw [if_pos h2]
          · rw [if_neg h2]
            by_cases h3 : val * 16 + (hex_digit_value (charAt s i)).toNat > 0xffff
            · rw [if_pos h3]
            · rw [if_neg h3]
              exact ih (i+1) curtok gc false (xd+1) _ (by omega) (by omega)
                ⟨j, k, by omega, hjk, hk2, hj3, hj4, hk3, hk4⟩
        · rw [if_neg h1]
          by_cases h2 : charAt s i = ':'
          · rw [if_pos h2]
            by_cases h3 : xd = 0
            · rw [if_pos h3, if_neg (show ¬(false = true) from by simp)]
              exact scanLoop_pair_none s e f (i+1) (i+1) gc 0 val (by omega) (by omega)
                ⟨j, by omega, by omega, hj3, hj4⟩
            · rw [if_neg h3]
              by_cases h4 : i + 1 = e
              · rw [if_pos h4]
              · rw [if_neg h4]
                by_cases h5 : gc + 1 > 8
                · rw [if_pos h5]
                · rw [if_neg h5]
                  exact ih (i+1) (i+1) (gc+1) false 0 0 (by omega) (by omega)
                    ⟨j, k, by omega, hjk, hk2, hj3, hj4, hk3, hk4⟩
          · rw [if_neg h2]
            by_cases h3 : charAt s i = '.' ∧ 0 < xd
            · rw [if_pos h3]
              rw [checkDots_colon s (e - curtok) curtok 0 ⟨j, by omega, by omega, hj3⟩]
            · rw [if_neg h3]

theorem ipv6_triple_colon_false (s : List Char) (j : Nat)
    (hj : j + 2 < strnlen s 46)
    (h1 : charAt s j = ':') (h2 : charAt s (j+1) = ':') (h3 : charAt s (j+2) = ':') :
    is_valid_ipv6_address (some s) = false := by
  show is_valid_ipv6_core s = false
  unfold is_valid_ipv6_core ipv6Scan
  by_cases h0 : charAt s 0 = '\x00'
  · rw [if_pos h0]
    rfl
  · rw [if_neg h0, if_neg (show ¬(strnlen s 46 = 0) from by omega)]
    by_cases hcol : charAt s 0 = ':'
    · rw [if_pos hcol]
      by_cases he1 : 1 = strnlen s 46
      · rw [if_pos he1]
        rfl
      · rw [if_neg he1]
        by_cases hc1 : charAt s 1 ≠ ':'
        · rw [if_pos hc1]
          rfl
        · rw [if_neg hc1]
          by_cases hj0 : 1 ≤ j
          · rw [scanLoop_triple_none s (strnlen s 46) (strnlen s 46 - 1) 1 1 0 false 0 0
              (by omega) (by omega) ⟨j, hj0, hj, h1, h2, h3⟩]
            rfl
          · have hj' : j = 0 := by omega
            subst hj'
            rw [show strnlen s 46 - 1 = (strnlen s 46 - 2) + 1 from by omega]
            unfold scanLoop
            rw [if_neg (show ¬(0 ≤ hex_digit_value (charAt s 1)) from by rw [h2]; decide),
              if_pos h2, if_pos rfl, if_neg (show ¬(false = true) from by simp)]
            rw [show strnlen s 46 - 2 = (strnlen s 46 - 3) + 1 from by omega]
            rw [scan_colon_comp_none s (strnlen s 46) (strnlen s 46 - 3) 2 2 0 0 h3]
            rfl
    · rw [if_neg hcol]
      rw [scanLoop_triple_none s (strnlen s 46) (strnlen s 46) 0 0 0 false 0 0
        (by omega) (by omega) ⟨j, Nat.zero_le j, hj, h1, h2, h3⟩]
      rfl

theorem ipv6_two_pairs_false (s : List Char) (j k : Nat)
    (hjk : j + 1 < k) (hk : k + 1 < strnlen s 46)
    (h1 : charAt s j = ':') (h2 : charAt s (j+1) = ':')
    (h3 : charAt s k = ':') (h4 : charAt s (k+1) = ':') :
    is_valid_ipv6_address (some s) = false := by
  show is_valid_ipv6_core s = false
  unfold is_valid_ipv6_core ipv6Scan
  by_cases h0 : charAt s 0 = '\x00'
  · rw [if_pos h0]
    rfl
  · rw [if_neg h0, if_neg (show ¬(strnlen s 46 = 0) from by omega)]
    by_cases hcol : charAt s 0 = ':'
    · rw [if_pos hcol]
      by_cases he1 : 1 = strnlen s 46
      · rw [if_pos he1]
        rfl
      · rw [if_neg he1]
        by_cases hc1 : charAt s 1 ≠ ':'
        · rw [if_pos hc1]
          rfl
        · rw [if_neg hc1]
          by_cases hj0 : 1 ≤ j
          · rw [scanLoop_two_pairs_none s (strnlen s 46) (strnlen s 46 - 1) 1 1 0 false 0 0
              (by omega) (by omega) ⟨j, k, hj0, hjk, hk, h1, h2, h3, h4⟩]
            rfl
          · have hj' : j = 0 := by omega
            subst hj'
            rw [show strnlen s 46 - 1 = (strnlen s 46 - 2) + 1 from by omega]
            unfold scanLoop
            rw [if_neg (show ¬(0 ≤ hex_digit_value (charAt s 1)) from by rw [h2]; decide),
              if_pos h2, if_pos rfl, if_neg (show ¬(false = true) from by simp)]
            rw [scanLoop_pair_none s (strnlen s 46) (strnlen s 46 - 2) 2 2 0 0 0
              (by omega) (by omega) ⟨k, by omega, by omega, h3, h4⟩]
            rfl
    · rw [if_neg hcol]
      rw [scanLoop_two_pairs_none s (strnlen s 46) (strnlen s 46) 0 0 0 false 0 0
        (by omega) (by omega) ⟨j, k, Nat.zero_le j, hjk, hk, h1, h2, h3, h4⟩]
      rfl

/-- C5 (amended): at most one compression marker is accepted during the
scan — a colon arriving with no pending hex digits after compression has
been consumed rejects immediately — and consequently any input whose
46-character scan window contains three consecutive colons, or two
disjoint `::` pairs, is rejected; extra colons beyond the scan window of
an accepted embedded-IPv4 form do not force rejection. -/
theorem c5_single_compression :
    (∀ (s : List Char) (e f i curtok gc val : Nat),
        charAt s i = ':' → scanLoop s e (f+1) i curtok gc true 0 val = none) ∧
      (∀ (s : List Char) (j : Nat), j + 2 < strnlen s 46 →
        charAt s j = ':' → charAt s (j+1) = ':' → charAt s (j+2) = ':' →
        is_valid_ipv6_address (some s) = false) ∧
      (∀ (s : List Char) (j k : Nat), j + 1 < k → k + 1 < strnlen s 46 →
        charAt s j = ':' → charAt s (j+1) = ':' →
        charAt s k = ':' → charAt s (k+1) = ':' →
        is_valid_ipv6_address (some s) = false) ∧
      is_valid_ipv6_address (some (str "2001:db8:::1")) = false := by
  refine ⟨?_, ?_, ?_, by decide⟩
  · intro s e f i curtok gc val hc
    exact scan_colon_comp_none s e f i curtok gc val hc
  · intro s j hj h1 h2 h3
    exact ipv6_triple_colon_false s j hj h1 h2 h3
  · intro s j k hjk hk h1 h2 h3 h4
    exact ipv6_two_pairs_false s j k hjk hk h1 h2 h3 h4

/-- C5 witness: the triple-colon rule applied to the concrete input
"1:::1". -/
theorem c5_single_compression_witness :
    (1 + 2 < strnlen (str "1:::1") 46 ∧ charAt (str "1:::1") 1 = ':' ∧
        charAt (str "1:::1") 2 = ':' ∧ charAt (str "1:::1") 3 = ':') ∧
      is_valid_ipv6_address (some (str "1:::1")) = false :=
  ⟨⟨by decide, by decide, by decide, by decide⟩,
    c5_single_compression.2.1 (str "1:::1") 1 (by decide) (by decide) (by decide) (by decide)⟩

/-- C5 counterexample: an accepted input that contains three consecutive
colons — they sit beyond the 46-character scan window, after an embedded
IPv4 suffix that validates against the untruncated string. -/
theorem c5_counterexample :
    charAt (str "0000:0000:0000:0000:0000:0000:0255.255.255.255.:::") 47 = ':' ∧
      charAt (str "0000:0000:0000:0000:0000:0000:0255.255.255.255.:::") 48 = ':' ∧
      charAt (str "0000:0000:0000:0000:0000:0000:0255.255.255.255.:::") 49 = ':' ∧
      is_valid_ipv6_address
        (some (str "0000:0000:0000:0000:0000:0000:0255.255.255.255.:::")) = true :=
  ⟨by decide, by decide, by decide, by decide⟩

end IpValidator
